import Mathlib

set_option maxRecDepth 8000

/-!
Verification development for the markdown editor's editing-state engine.

The history manager is translated from `useHistoryManager` in
`src/components/FileContextMenu.tsx` (lines 404-474).  React `useState` cells
become fields of an explicit state record; `Date.now()` becomes an explicit
timestamp argument; JS numbers holding list indices/sizes become `Nat`
(faithful for the configurations with `maxHistorySize ≥ 1` that the claims
concern, since the only subtraction is `maxHistorySize - 1`).
-/

structure HistoryState where
  content : String
  cursorPosition : Nat
  timestamp : Nat
deriving Repr, DecidableEq

structure HistoryManager where
  history : List HistoryState
  currentIndex : Nat
  content : String
  maxHistorySize : Nat
deriving Repr, DecidableEq

/-- Initial state of the hook: a single snapshot of the initial content at
position 0 (`useState<HistoryState[]>([{content: initialContent, cursorPosition: 0,
timestamp: Date.now()}])`, `currentIndex = 0`). -/
def useHistoryManager (initialContent : String) (maxHistorySize : Nat) (ts : Nat) :
    HistoryManager :=
  { history := [{ content := initialContent, cursorPosition := 0, timestamp := ts }]
    currentIndex := 0
    content := initialContent
    maxHistorySize := maxHistorySize }

/-- `addHistory(newContent, cursorPos)`: no-op when
`history[currentIndex]?.content === newContent`; otherwise truncate after the
current index (`prev.slice(0, currentIndex + 1)`), append the new snapshot,
drop the oldest entry (`shift()`) when the length exceeds `maxHistorySize`,
and set `currentIndex = Math.min(prev + 1, maxHistorySize - 1)`. -/
def HistoryManager.addHistory (m : HistoryManager) (newContent : String)
    (cursorPos : Nat) (ts : Nat) : HistoryManager :=
  if (m.history[m.currentIndex]?).map HistoryState.content = some newContent then m
  else
    let grown := m.history.take (m.currentIndex + 1) ++
      [{ content := newContent, cursorPosition := cursorPos, timestamp := ts }]
    { m with
      history := if grown.length > m.maxHistorySize then grown.tail else grown
      currentIndex := min (m.currentIndex + 1) (m.maxHistorySize - 1)
      content := newContent }

/-- `undo()`: when `currentIndex > 0`, decrement the index, load that
snapshot's content, and return the snapshot; otherwise return null with no
state change.  The `none` inner branch mirrors the (unreachable for reachable
states) JS access `history[newIndex]` being `undefined`. -/
def HistoryManager.undo (m : HistoryManager) : Option HistoryState × HistoryManager :=
  if 0 < m.currentIndex then
    match m.history[m.currentIndex - 1]? with
    | some previousState =>
        (some previousState,
         { m with currentIndex := m.currentIndex - 1, content := previousState.content })
    | none => (none, m)
  else (none, m)

/-- `redo()`: when `currentIndex < history.length - 1`, increment the index,
load that snapshot's content, and return the snapshot; otherwise return null
with no state change. -/
def HistoryManager.redo (m : HistoryManager) : Option HistoryState × HistoryManager :=
  if m.currentIndex < m.history.length - 1 then
    match m.history[m.currentIndex + 1]? with
    | some nextState =>
        (some nextState,
         { m with currentIndex := m.currentIndex + 1, content := nextState.content })
    | none => (none, m)
  else (none, m)

/-- `canUndo: currentIndex > 0`. -/
def HistoryManager.canUndo (m : HistoryManager) : Bool := decide (0 < m.currentIndex)

/-- `canRedo: currentIndex < history.length - 1`. -/
def HistoryManager.canRedo (m : HistoryManager) : Bool :=
  decide (m.currentIndex < m.history.length - 1)

def HistoryManager.historyLength (m : HistoryManager) : Nat := m.history.length

def undoState (m : HistoryManager) : HistoryManager := (m.undo).2

def redoState (m : HistoryManager) : HistoryManager := (m.redo).2

def undoTimes : HistoryManager → Nat → HistoryManager
  | m, 0 => m
  | m, k+1 => undoTimes (undoState m) k

def redoTimes : HistoryManager → Nat → HistoryManager
  | m, 0 => m
  | m, k+1 => redoTimes (redoState m) k

/-- The state after pushing contents `c 1, …, c N` (with cursor positions
`p i` and timestamps `t i`) onto a manager freshly initialized with `c 0`. -/
def pushUpTo (c : Nat → String) (p t : Nat → Nat) (M t0 : Nat) : Nat → HistoryManager
  | 0 => useHistoryManager (c 0) M t0
  | k+1 => (pushUpTo c p t M t0 k).addHistory (c (k+1)) (p (k+1)) (t (k+1))

inductive HistOp where
  | push (c : String) (pos ts : Nat)
  | undoOp
  | redoOp
deriving Repr, DecidableEq

def applyHistOp (m : HistoryManager) : HistOp → HistoryManager
  | .push c pos ts => m.addHistory c pos ts
  | .undoOp => undoState m
  | .redoOp => redoState m

def applyHistOps (m : HistoryManager) (ops : List HistOp) : HistoryManager :=
  ops.foldl applyHistOp m

def pushList (m : HistoryManager) (ps : List (String × Nat × Nat)) : HistoryManager :=
  ps.foldl (fun m q => m.addHistory q.1 q.2.1 q.2.2) m

/-- Structural invariant of the history manager: the current index is in
bounds, the stack never exceeds the configured maximum, and the index stays
below the maximum. -/
def HMInv (m : HistoryManager) : Prop :=
  m.currentIndex < m.history.length ∧
  m.history.length ≤ m.maxHistorySize ∧
  m.currentIndex + 1 ≤ m.maxHistorySize

instance (m : HistoryManager) : Decidable (HMInv m) := by
  unfold HMInv; infer_instance

theorem hmInv_init (c : String) (M t0 : Nat) (hM : 1 ≤ M) :
    HMInv (useHistoryManager c M t0) := by
  refine ⟨by simp [useHistoryManager], by simpa [useHistoryManager], by
    simpa [useHistoryManager] using hM⟩

theorem addHistory_noop (m : HistoryManager) (st : HistoryState)
    (hg : m.history[m.currentIndex]? = some st) (p t : Nat) :
    m.addHistory st.content p t = m := by
  unfold HistoryManager.addHistory
  simp [hg]

theorem addHistory_no_evict (m : HistoryManager) (c : String) (p t : Nat)
    (h1 : m.currentIndex < m.history.length)
    (hd : ¬ (m.history[m.currentIndex]?).map HistoryState.content = some c)
    (hsz : m.currentIndex + 2 ≤ m.maxHistorySize) :
    m.addHistory c p t =
      { m with
        history := m.history.take (m.currentIndex + 1) ++
          [{ content := c, cursorPosition := p, timestamp := t }]
        currentIndex := m.currentIndex + 1
        content := c } := by
  unfold HistoryManager.addHistory
  rw [if_neg hd]
  have htk : (m.history.take (m.currentIndex + 1)).length = m.currentIndex + 1 := by
    simp [List.length_take]; omega
  simp only [List.length_append, htk, List.length_singleton]
  rw [if_neg (by omega)]
  have hmin : min (m.currentIndex + 1) (m.maxHistorySize - 1) = m.currentIndex + 1 := by
    omega
  rw [hmin]

theorem addHistory_evict (m : HistoryManager) (c : String) (p t : Nat)
    (h1 : m.currentIndex < m.history.length)
    (h3 : m.currentIndex + 1 ≤ m.maxHistorySize)
    (hd : ¬ (m.history[m.currentIndex]?).map HistoryState.content = some c)
    (hsz : m.maxHistorySize < m.currentIndex + 2) :
    m.addHistory c p t =
      { m with
        history := (m.history.take (m.currentIndex + 1)).tail ++
          [{ content := c, cursorPosition := p, timestamp := t }]
        currentIndex := m.currentIndex
        content := c } := by
  unfold HistoryManager.addHistory
  rw [if_neg hd]
  have htk : (m.history.take (m.currentIndex + 1)).length = m.currentIndex + 1 := by
    simp [List.length_take]; omega
  have hne : m.history.take (m.currentIndex + 1) ≠ [] := by
    intro hnil; rw [hnil] at htk; simp at htk
  simp only [List.length_append, htk, List.length_singleton]
  rw [if_pos (by omega)]
  have hmin : min (m.currentIndex + 1) (m.maxHistorySize - 1) = m.currentIndex := by
    omega
  rw [hmin, List.tail_append_of_ne_nil hne]

theorem addHistory_inv (m : HistoryManager) (h : HMInv m) (c : String) (p t : Nat) :
    HMInv (m.addHistory c p t) := by
  obtain ⟨h1, h2, h3⟩ := h
  by_cases hd : (m.history[m.currentIndex]?).map HistoryState.content = some c
  · obtain ⟨st, hst⟩ : ∃ st, m.history[m.currentIndex]? = some st := by
      cases hq : m.history[m.currentIndex]? with
      | none => rw [hq] at hd; simp at hd
      | some st => exact ⟨st, rfl⟩
    have hc : st.content = c := by rw [hst] at hd; simpa using hd
    rw [← hc, addHistory_noop m st hst p t]
    exact ⟨h1, h2, h3⟩
  · have htk : (m.history.take (m.currentIndex + 1)).length = m.currentIndex + 1 := by
      simp [List.length_take]; omega
    by_cases hsz : m.currentIndex + 2 ≤ m.maxHistorySize
    · rw [addHistory_no_evict m c p t h1 hd hsz]
      refine ⟨?_, ?_, ?_⟩ <;>
        simp only [List.length_append, htk, List.length_singleton] <;> omega
    · rw [addHistory_evict m c p t h1 h3 hd (by omega)]
      refine ⟨?_, ?_, ?_⟩ <;>
        simp only [List.length_append, List.length_tail, htk, List.length_singleton] <;>
        omega

theorem addHistory_current (m : HistoryManager) (h : HMInv m) (c : String) (p t : Nat) :
    ∃ st, (m.addHistory c p t).history[(m.addHistory c p t).currentIndex]? = some st ∧
      st.content = c := by
  obtain ⟨h1, h2, h3⟩ := h
  by_cases hd : (m.history[m.currentIndex]?).map HistoryState.content = some c
  · obtain ⟨st, hst⟩ : ∃ st, m.history[m.currentIndex]? = some st := by
      cases hq : m.history[m.currentIndex]? with
      | none => rw [hq] at hd; simp at hd
      | some st => exact ⟨st, rfl⟩
    have hc : st.content = c := by rw [hst] at hd; simpa using hd
    rw [← hc, addHistory_noop m st hst p t]
    exact ⟨st, hst, rfl⟩
  · have htk : (m.history.take (m.currentIndex + 1)).length = m.currentIndex + 1 := by
      simp [List.length_take]; omega
    by_cases hsz : m.currentIndex + 2 ≤ m.maxHistorySize
    · rw [addHistory_no_evict m c p t h1 hd hsz]
      refine ⟨{ content := c, cursorPosition := p, timestamp := t }, ?_, rfl⟩
      simp only []
      rw [List.getElem?_append_right htk.le]
      simp [htk]
    · rw [addHistory_evict m c p t h1 h3 hd (by omega)]
      refine ⟨{ content := c, cursorPosition := p, timestamp := t }, ?_, rfl⟩
      simp only []
      have htl : ((m.history.take (m.currentIndex + 1)).tail).length = m.currentIndex := by
        simp [List.length_tail, htk]
      rw [List.getElem?_append_right htl.le]
      simp [htl]

theorem undoState_inv (m : HistoryManager) (h : HMInv m) : HMInv (undoState m) := by
  obtain ⟨h1, h2, h3⟩ := h
  unfold undoState HistoryManager.undo
  split
  case isTrue hpos =>
    split
    case h_1 st heq =>
      have e1 : m.currentIndex - 1 < m.history.length := by omega
      have e3 : m.currentIndex - 1 + 1 ≤ m.maxHistorySize := by omega
      exact ⟨e1, h2, e3⟩
    case h_2 => exact ⟨h1, h2, h3⟩
  case isFalse hpos => exact ⟨h1, h2, h3⟩

theorem redoState_inv (m : HistoryManager) (h : HMInv m) : HMInv (redoState m) := by
  obtain ⟨h1, h2, h3⟩ := h
  unfold redoState HistoryManager.redo
  split
  case isTrue hlt =>
    split
    case h_1 st heq =>
      have e1 : m.currentIndex + 1 < m.history.length := by omega
      have e3 : m.currentIndex + 1 + 1 ≤ m.maxHistorySize := by omega
      exact ⟨e1, h2, e3⟩
    case h_2 => exact ⟨h1, h2, h3⟩
  case isFalse hlt => exact ⟨h1, h2, h3⟩

theorem applyHistOp_inv (m : HistoryManager) (h : HMInv m) (op : HistOp) :
    HMInv (applyHistOp m op) := by
  cases op with
  | push c pos ts => exact addHistory_inv m h c pos ts
  | undoOp => exact undoState_inv m h
  | redoOp => exact redoState_inv m h

theorem applyHistOps_inv (ops : List HistOp) (m : HistoryManager) (h : HMInv m) :
    HMInv (applyHistOps m ops) := by
  induction ops generalizing m with
  | nil => exact h
  | cons op rest ih => exact ih _ (applyHistOp_inv m h op)

/-! ### Decimal rendering of naturals (JS template literal `${n}`) -/

def digitChar : Nat → Char
  | 0 => '0' | 1 => '1' | 2 => '2' | 3 => '3' | 4 => '4'
  | 5 => '5' | 6 => '6' | 7 => '7' | 8 => '8' | _ => '9'

def natReprAux : Nat → Nat → List Char
  | 0, _ => []
  | fuel+1, n =>
      if n < 10 then [digitChar n]
      else natReprAux fuel (n / 10) ++ [digitChar (n % 10)]

/-- Decimal rendering of a natural number, matching the JS template literal
interpolation of a nonnegative integer. -/
def natRepr (n : Nat) : String := String.mk (natReprAux (n + 1) n)

def digitVal (ch : Char) : Nat := ch.toNat - 48

def digitsVal (l : List Char) : Nat := l.foldl (fun a ch => a * 10 + digitVal ch) 0

theorem digitVal_digitChar (d : Nat) (hd : d < 10) : digitVal (digitChar d) = d := by
  interval_cases d <;> rfl

theorem digitsVal_concat (xs : List Char) (ch : Char) :
    digitsVal (xs ++ [ch]) = digitsVal xs * 10 + digitVal ch := by
  simp [digitsVal, List.foldl_append]

theorem natReprAux_val : ∀ fuel n, n < fuel → digitsVal (natReprAux fuel n) = n := by
  intro fuel
  induction fuel with
  | zero => intro n h; omega
  | succ fuel ih =>
      intro n h
      unfold natReprAux
      split
      case isTrue h10 =>
        simp [digitsVal, digitVal_digitChar n h10]
      case isFalse h10 =>
        have hdiv : n / 10 < n := Nat.div_lt_self (by omega) (by omega)
        rw [digitsVal_concat, ih (n / 10) (by omega),
          digitVal_digitChar _ (Nat.mod_lt _ (by omega))]
        omega

theorem natRepr_injective : Function.Injective natRepr := by
  intro a b hab
  have ha := natReprAux_val (a + 1) a (by omega)
  have hb := natReprAux_val (b + 1) b (by omega)
  have hdata : natReprAux (a + 1) a = natReprAux (b + 1) b := by
    have := congrArg String.data hab
    simpa [natRepr] using this
  rw [hdata] at ha
  omega

/-! ### Characterization of push/undo/redo sequences -/

/-- Snapshot `i` of the push sequence `c 0, c 1, …`: the initial snapshot has
cursor position 0 and timestamp `t0`; later snapshots carry `p i` / `t i`. -/
def snapAt (c : Nat → String) (p t : Nat → Nat) (t0 : Nat) (i : Nat) : HistoryState :=
  if i = 0 then { content := c 0, cursorPosition := 0, timestamp := t0 }
  else { content := c i, cursorPosition := p i, timestamp := t i }

theorem snapAt_content (c : Nat → String) (p t : Nat → Nat) (t0 i : Nat) :
    (snapAt c p t t0 i).content = c i := by
  unfold snapAt; split <;> simp_all

theorem getElem?_range_map {α : Type} (f : Nat → α) (n i : Nat) (h : i < n) :
    ((List.range n).map f)[i]? = some (f i) := by
  rw [List.getElem?_map, List.getElem?_range h]
  rfl

theorem pushUpTo_spec (c : Nat → String) (p t : Nat → Nat) (M t0 N : Nat)
    (hM : N + 1 ≤ M) (hd : ∀ i < N, c i ≠ c (i + 1)) :
    pushUpTo c p t M t0 N =
      { history := (List.range (N + 1)).map (snapAt c p t t0)
        currentIndex := N
        content := c N
        maxHistorySize := M } := by
  induction N with
  | zero =>
      show useHistoryManager (c 0) M t0 = _
      simp [useHistoryManager, List.range_succ, snapAt]
  | succ k ih =>
      have ihh := ih (by omega) (fun i hi => hd i (by omega))
      show (pushUpTo c p t M t0 k).addHistory (c (k + 1)) (p (k + 1)) (t (k + 1)) = _
      rw [ihh]
      have hlen : ((List.range (k + 1)).map (snapAt c p t t0)).length = k + 1 := by simp
      have hget : ((List.range (k + 1)).map (snapAt c p t t0))[k]? =
          some (snapAt c p t t0 k) := getElem?_range_map _ _ _ (by omega)
      rw [addHistory_no_evict _ _ _ _
        (by show k < ((List.range (k + 1)).map (snapAt c p t t0)).length; simp)
        ?hdd (by show k + 2 ≤ M; omega)]
      case hdd =>
        show ¬ (((List.range (k + 1)).map (snapAt c p t t0))[k]?).map
          HistoryState.content = some (c (k + 1))
        rw [hget]
        simp only [Option.map_some', snapAt_content, Option.some.injEq]
        exact hd k (by omega)
      show ({ history := _, currentIndex := k + 1, content := c (k + 1),
              maxHistorySize := M } : HistoryManager) = _
      have htake : ((List.range (k + 1)).map (snapAt c p t t0)).take (k + 1) =
          (List.range (k + 1)).map (snapAt c p t t0) :=
        List.take_of_length_le (by omega)
      have hsnap : snapAt c p t t0 (k + 1) =
          { content := c (k + 1), cursorPosition := p (k + 1), timestamp := t (k + 1) } := by
        unfold snapAt; rw [if_neg (Nat.succ_ne_zero k)]
      have hr : (List.range (k + 1 + 1)).map (snapAt c p t t0) =
          (List.range (k + 1)).map (snapAt c p t t0) ++ [snapAt c p t t0 (k + 1)] := by
        rw [List.range_succ, List.map_append]; rfl
      rw [htake, hr, hsnap]

def mkHM (L : List HistoryState) (i : Nat) (x : String) (M : Nat) : HistoryManager :=
  { history := L, currentIndex := i, content := x, maxHistorySize := M }

theorem undoTimes_spec (L : List HistoryState) (M : Nat) :
    ∀ (k i : Nat) (x : String), k ≤ i → i < L.length →
      (L[i]?).map HistoryState.content = some x →
      ∃ y, undoTimes (mkHM L i x M) k = mkHM L (i - k) y M ∧
        (L[i - k]?).map HistoryState.content = some y := by
  intro k
  induction k with
  | zero =>
      intro i x _ hi hx
      exact ⟨x, rfl, by simpa using hx⟩
  | succ k ih =>
      intro i x hk hi hx
      have hpos : 0 < i := by omega
      have hi1 : i - 1 < L.length := by omega
      have hst : L[i-1]? = some (L.get ⟨i - 1, hi1⟩) := List.getElem?_eq_getElem hi1
      have hstep : undoState (mkHM L i x M) =
          mkHM L (i - 1) (L.get ⟨i - 1, hi1⟩).content M := by
        unfold mkHM undoState HistoryManager.undo
        rw [if_pos hpos]
        simp only [hst]
      rw [show undoTimes (mkHM L i x M) (k + 1) =
          undoTimes (undoState (mkHM L i x M)) k from rfl, hstep]
      obtain ⟨y, hy1, hy2⟩ := ih (i - 1) (L.get ⟨i - 1, hi1⟩).content (by omega) (by omega)
        (by rw [hst]; rfl)
      have hidx : i - 1 - k = i - (k + 1) := by omega
      rw [hidx] at hy1 hy2
      exact ⟨y, hy1, hy2⟩

theorem redoTimes_spec (L : List HistoryState) (M : Nat) :
    ∀ (j i : Nat) (x : String), i + j < L.length →
      (L[i]?).map HistoryState.content = some x →
      ∃ y, redoTimes (mkHM L i x M) j = mkHM L (i + j) y M ∧
        (L[i + j]?).map HistoryState.content = some y := by
  intro j
  induction j with
  | zero =>
      intro i x _ hx
      exact ⟨x, rfl, by simpa using hx⟩
  | succ j ih =>
      intro i x hj hx
      have hi1 : i + 1 < L.length := by omega
      have hst : L[i+1]? = some (L.get ⟨i + 1, hi1⟩) := List.getElem?_eq_getElem hi1
      have hstep : redoState (mkHM L i x M) =
          mkHM L (i + 1) (L.get ⟨i + 1, hi1⟩).content M := by
        unfold mkHM redoState HistoryManager.redo
        rw [if_pos (by show i < L.length - 1; omega)]
        simp only [hst]
      rw [show redoTimes (mkHM L i x M) (j + 1) =
          redoTimes (redoState (mkHM L i x M)) j from rfl, hstep]
      obtain ⟨y, hy1, hy2⟩ := ih (i + 1) (L.get ⟨i + 1, hi1⟩).content (by omega)
        (by rw [hst]; rfl)
      have hidx : i + 1 + j = i + (j + 1) := by omega
      rw [hidx] at hy1 hy2
      exact ⟨y, hy1, hy2⟩

theorem addHistory_of_dedup (m : HistoryManager) (c : String) (p t : Nat)
    (hd : (m.history[m.currentIndex]?).map HistoryState.content = some c) :
    m.addHistory c p t = m := by
  unfold HistoryManager.addHistory
  rw [if_pos hd]

theorem addHistory_max (m : HistoryManager) (c : String) (p t : Nat) :
    (m.addHistory c p t).maxHistorySize = m.maxHistorySize := by
  unfold HistoryManager.addHistory
  split <;> rfl

theorem pushList_max (ps : List (String × Nat × Nat)) (m : HistoryManager) :
    (pushList m ps).maxHistorySize = m.maxHistorySize := by
  induction ps generalizing m with
  | nil => rfl
  | cons q rest ih =>
      show (pushList (m.addHistory q.1 q.2.1 q.2.2) rest).maxHistorySize = _
      rw [ih, addHistory_max]

/-- Invariant of states reachable by pushes alone: the current index sits at
the top of the stack. -/
def PushInv (m : HistoryManager) : Prop :=
  HMInv m ∧ m.currentIndex = m.history.length - 1

theorem pushInv_init (c : String) (M t0 : Nat) (hM : 1 ≤ M) :
    PushInv (useHistoryManager c M t0) :=
  ⟨hmInv_init c M t0 hM, by simp [useHistoryManager]⟩

theorem addHistory_pushInv (m : HistoryManager) (h : PushInv m) (c : String)
    (p t : Nat) : PushInv (m.addHistory c p t) := by
  obtain ⟨⟨h1, h2, h3⟩, htop⟩ := h
  refine ⟨addHistory_inv m ⟨h1, h2, h3⟩ c p t, ?_⟩
  by_cases hd : (m.history[m.currentIndex]?).map HistoryState.content = some c
  · rw [addHistory_of_dedup m c p t hd]; exact htop
  · have htk : (m.history.take (m.currentIndex + 1)).length = m.currentIndex + 1 := by
      simp [List.length_take]; omega
    by_cases hsz : m.currentIndex + 2 ≤ m.maxHistorySize
    · rw [addHistory_no_evict m c p t h1 hd hsz]
      simp only [List.length_append, htk, List.length_singleton]
      omega
    · rw [addHistory_evict m c p t h1 h3 hd (by omega)]
      simp only [List.length_append, List.length_tail, htk, List.length_singleton]
      omega

theorem pushList_pushInv (ps : List (String × Nat × Nat)) (m : HistoryManager)
    (h : PushInv m) : PushInv (pushList m ps) := by
  induction ps generalizing m with
  | nil => exact h
  | cons q rest ih => exact ih _ (addHistory_pushInv m h q.1 q.2.1 q.2.2)

/-- C6: pushing never grows the history past the configured maximum `M`; a
push on a full stack of length `M` (that is not deduplicated) drops exactly
the oldest entry and appends the new snapshot at the top, keeping the length
at `M`. -/
theorem history_cap (c0 : String) (M t0 : Nat) (hM : 1 ≤ M)
    (ps qs : List (String × Nat × Nat)) (c : String) (p t : Nat)
    (hfull : (pushList (useHistoryManager c0 M t0) qs).history.length = M)
    (hnew : ¬ ((pushList (useHistoryManager c0 M t0) qs).history[(pushList
      (useHistoryManager c0 M t0) qs).currentIndex]?).map HistoryState.content = some c) :
    (pushList (useHistoryManager c0 M t0) ps).history.length ≤ M ∧
    ((pushList (useHistoryManager c0 M t0) qs).addHistory c p t).history =
      (pushList (useHistoryManager c0 M t0) qs).history.tail ++
        [{ content := c, cursorPosition := p, timestamp := t }] ∧
    ((pushList (useHistoryManager c0 M t0) qs).addHistory c p t).history.length = M := by
  have hps := pushList_pushInv ps _ (pushInv_init c0 M t0 hM)
  have hqs := pushList_pushInv qs _ (pushInv_init c0 M t0 hM)
  obtain ⟨⟨q1, q2, q3⟩, qtop⟩ := hqs
  have hmax : (pushList (useHistoryManager c0 M t0) qs).maxHistorySize = M := by
    rw [pushList_max]; rfl
  have hmaxp : (pushList (useHistoryManager c0 M t0) ps).maxHistorySize = M := by
    rw [pushList_max]; rfl
  refine ⟨?_, ?_, ?_⟩
  · have := hps.1.2.1
    omega
  · have htk : (pushList (useHistoryManager c0 M t0) qs).currentIndex + 1 =
        (pushList (useHistoryManager c0 M t0) qs).history.length := by omega
    rw [addHistory_evict _ c p t q1 q3 hnew (by omega)]
    rw [htk, List.take_length]
  · have htk : (pushList (useHistoryManager c0 M t0) qs).currentIndex + 1 =
        (pushList (useHistoryManager c0 M t0) qs).history.length := by omega
    rw [addHistory_evict _ c p t q1 q3 hnew (by omega)]
    simp only [htk, List.take_length, List.length_append, List.length_tail,
      List.length_singleton]
    omega

/-- C6 witness: concrete instantiation with maximum size 2 — two pushes stay
within the cap, and a push on the full stack evicts the oldest entry. -/
theorem history_cap_witness :
    (pushList (useHistoryManager "a" 2 0) [("b", 0, 0), ("c", 1, 1)]).history.length ≤ 2 ∧
    ((pushList (useHistoryManager "a" 2 0) [("b", 0, 0)]).addHistory "c" 1 1).history =
      (pushList (useHistoryManager "a" 2 0) [("b", 0, 0)]).history.tail ++
        [{ content := "c", cursorPosition := 1, timestamp := 1 }] ∧
    ((pushList (useHistoryManager "a" 2 0) [("b", 0, 0)]).addHistory "c" 1 1).history.length = 2 :=
  history_cap "a" 2 0 (by decide) [("b", 0, 0), ("c", 1, 1)] [("b", 0, 0)] "c" 1 1
    (by decide) (by decide)

/-- C8: `undo` at position 0 and `redo` at the last index are no-ops returning
"nothing"; otherwise they move the position by one and return the snapshot at
the new position; `canUndo`/`canRedo` hold exactly on the position bounds. -/
theorem undo_redo_boundary (m : HistoryManager) :
    (m.currentIndex = 0 → m.undo = (none, m)) ∧
    (m.currentIndex = m.history.length - 1 → m.redo = (none, m)) ∧
    (∀ st, 0 < m.currentIndex → m.history[m.currentIndex - 1]? = some st →
      m.undo = (some st,
        { m with currentIndex := m.currentIndex - 1, content := st.content })) ∧
    (∀ st, m.currentIndex < m.history.length - 1 →
      m.history[m.currentIndex + 1]? = some st →
      m.redo = (some st,
        { m with currentIndex := m.currentIndex + 1, content := st.content })) ∧
    (m.canUndo = true ↔ 0 < m.currentIndex) ∧
    (m.canRedo = true ↔ m.currentIndex < m.history.length - 1) := by
  refine ⟨?_, ?_, ?_, ?_, ?_, ?_⟩
  · intro h; unfold HistoryManager.undo; rw [if_neg (by omega)]
  · intro h; unfold HistoryManager.redo; rw [if_neg (by omega)]
  · intro st hpos hst; unfold HistoryManager.undo; rw [if_pos hpos]; simp only [hst]
  · intro st hlt hst; unfold HistoryManager.redo; rw [if_pos hlt]; simp only [hst]
  · simp [HistoryManager.canUndo]
  · simp [HistoryManager.canRedo]

/-- C8 witness: concrete boundary and interior undo/redo behavior. -/
theorem undo_redo_boundary_witness :
    (mkHM [⟨"a", 0, 0⟩] 0 "a" 100).undo = (none, mkHM [⟨"a", 0, 0⟩] 0 "a" 100) ∧
    (mkHM [⟨"a", 0, 0⟩, ⟨"b", 1, 1⟩] 1 "b" 100).redo =
      (none, mkHM [⟨"a", 0, 0⟩, ⟨"b", 1, 1⟩] 1 "b" 100) ∧
    (mkHM [⟨"a", 0, 0⟩, ⟨"b", 1, 1⟩] 1 "b" 100).undo =
      (some ⟨"a", 0, 0⟩, mkHM [⟨"a", 0, 0⟩, ⟨"b", 1, 1⟩] 0 "a" 100) ∧
    (mkHM [⟨"a", 0, 0⟩, ⟨"b", 1, 1⟩] 0 "a" 100).redo =
      (some ⟨"b", 1, 1⟩, mkHM [⟨"a", 0, 0⟩, ⟨"b", 1, 1⟩] 1 "b" 100) ∧
    (mkHM [⟨"a", 0, 0⟩, ⟨"b", 1, 1⟩] 1 "b" 100).canUndo = true :=
  ⟨(undo_redo_boundary (mkHM [⟨"a", 0, 0⟩] 0 "a" 100)).1 rfl,
   (undo_redo_boundary (mkHM [⟨"a", 0, 0⟩, ⟨"b", 1, 1⟩] 1 "b" 100)).2.1 rfl,
   (undo_redo_boundary (mkHM [⟨"a", 0, 0⟩, ⟨"b", 1, 1⟩] 1 "b" 100)).2.2.1 ⟨"a", 0, 0⟩
     (by decide) rfl,
   (undo_redo_boundary (mkHM [⟨"a", 0, 0⟩, ⟨"b", 1, 1⟩] 0 "a" 100)).2.2.2.1 ⟨"b", 1, 1⟩
     (by decide) rfl,
   (undo_redo_boundary (mkHM [⟨"a", 0, 0⟩, ⟨"b", 1, 1⟩] 1 "b" 100)).2.2.2.2.1.mpr
     (by decide)⟩

/-- C9: pushing the content stored at the current stack position is a no-op,
and pushing the same content twice in a row leaves the second push a no-op —
in particular the stack length does not grow. -/
theorem addHistory_dedup (m : HistoryManager) (hInv : HMInv m) :
    (∀ st p t, m.history[m.currentIndex]? = some st →
      m.addHistory st.content p t = m) ∧
    (∀ c p t p2 t2, (m.addHistory c p t).addHistory c p2 t2 = m.addHistory c p t) ∧
    (∀ c p t p2 t2, ((m.addHistory c p t).addHistory c p2 t2).history.length =
      (m.addHistory c p t).history.length) := by
  have key : ∀ c p t p2 t2,
      (m.addHistory c p t).addHistory c p2 t2 = m.addHistory c p t := by
    intro c p t p2 t2
    obtain ⟨st, hst, hc⟩ := addHistory_current m hInv c p t
    have hnoop := addHistory_noop (m.addHistory c p t) st hst p2 t2
    rw [hc] at hnoop
    exact hnoop
  exact ⟨fun st p t hst => addHistory_noop m st hst p t, key,
    fun c p t p2 t2 => by rw [key c p t p2 t2]⟩

/-- C9 witness: concrete no-op push and concrete double push. -/
theorem addHistory_dedup_witness :
    (useHistoryManager "a" 100 0).addHistory "a" 3 4 = useHistoryManager "a" 100 0 ∧
    ((useHistoryManager "a" 100 0).addHistory "b" 1 2).addHistory "b" 3 4 =
      (useHistoryManager "a" 100 0).addHistory "b" 1 2 ∧
    (((useHistoryManager "a" 100 0).addHistory "b" 1 2).addHistory "b" 3 4).history.length =
      ((useHistoryManager "a" 100 0).addHistory "b" 1 2).history.length :=
  ⟨(addHistory_dedup (useHistoryManager "a" 100 0) (by decide)).1 ⟨"a", 0, 0⟩ 3 4 rfl,
   (addHistory_dedup (useHistoryManager "a" 100 0) (by decide)).2.1 "b" 1 2 3 4,
   (addHistory_dedup (useHistoryManager "a" 100 0) (by decide)).2.2 "b" 1 2 3 4⟩

/-- C10: starting from the initial single-entry history, after any sequence of
addHistory/undo/redo operations the current index is in bounds, and every
snapshot access performed by the dedup check, undo and redo is defined. -/
theorem history_index_safety (c0 : String) (M t0 : Nat) (hM : 1 ≤ M)
    (ops : List HistOp) :
    (applyHistOps (useHistoryManager c0 M t0) ops).currentIndex <
      (applyHistOps (useHistoryManager c0 M t0) ops).history.length ∧
    ((applyHistOps (useHistoryManager c0 M t0) ops).history[(applyHistOps
      (useHistoryManager c0 M t0) ops).currentIndex]?).isSome = true ∧
    (0 < (applyHistOps (useHistoryManager c0 M t0) ops).currentIndex →
      ((applyHistOps (useHistoryManager c0 M t0) ops).history[(applyHistOps
        (useHistoryManager c0 M t0) ops).currentIndex - 1]?).isSome = true) ∧
    ((applyHistOps (useHistoryManager c0 M t0) ops).currentIndex <
        (applyHistOps (useHistoryManager c0 M t0) ops).history.length - 1 →
      ((applyHistOps (useHistoryManager c0 M t0) ops).history[(applyHistOps
        (useHistoryManager c0 M t0) ops).currentIndex + 1]?).isSome = true) := by
  obtain ⟨h1, h2, h3⟩ := applyHistOps_inv ops _ (hmInv_init c0 M t0 hM)
  refine ⟨h1, ?_, ?_, ?_⟩
  · rw [List.getElem?_eq_getElem h1]; rfl
  · intro h; rw [List.getElem?_eq_getElem (by omega)]; rfl
  · intro h; rw [List.getElem?_eq_getElem (by omega)]; rfl

/-- C10 witness: concrete operation sequences exercising the undo-side and
redo-side accesses. -/
theorem history_index_safety_witness :
    ((applyHistOps (useHistoryManager "a" 100 0) [HistOp.push "b" 1 2]).history[(applyHistOps
      (useHistoryManager "a" 100 0) [HistOp.push "b" 1 2]).currentIndex - 1]?).isSome = true ∧
    ((applyHistOps (useHistoryManager "a" 100 0)
        [HistOp.push "b" 1 2, HistOp.undoOp]).history[(applyHistOps (useHistoryManager "a" 100 0)
        [HistOp.push "b" 1 2, HistOp.undoOp]).currentIndex + 1]?).isSome = true :=
  ⟨(history_index_safety "a" 100 0 (by decide) [HistOp.push "b" 1 2]).2.2.1 (by decide),
   (history_index_safety "a" 100 0 (by decide) [HistOp.push "b" 1 2, HistOp.undoOp]).2.2.2
     (by decide)⟩

/-- C1 (amended): for N pushes of successively distinct contents on a freshly
initialized manager, with N below the configured maximum so that no eviction
occurs, k undos (k ≤ N) followed by j redos (j ≤ k) land on the content that
was current after the first N − k + j pushes. -/
theorem history_linearity (c : Nat → String) (p t : Nat → Nat) (M t0 N k j : Nat)
    (hM : N + 1 ≤ M) (hd : ∀ i < N, c i ≠ c (i + 1)) (hk : k ≤ N) (hj : j ≤ k) :
    (redoTimes (undoTimes (pushUpTo c p t M t0 N) k) j).content = c (N - k + j) := by
  have hps : pushUpTo c p t M t0 N =
      mkHM ((List.range (N + 1)).map (snapAt c p t t0)) N (c N) M :=
    pushUpTo_spec c p t M t0 N hM hd
  rw [hps]
  have hgN : ((((List.range (N + 1)).map (snapAt c p t t0)))[N]?).map
      HistoryState.content = some (c N) := by
    rw [getElem?_range_map _ _ _ (by omega)]
    simp [snapAt_content]
  obtain ⟨y, hy1, hy2⟩ := undoTimes_spec ((List.range (N + 1)).map (snapAt c p t t0)) M
    k N (c N) hk (by simp) hgN
  rw [hy1]
  obtain ⟨z, hz1, hz2⟩ := redoTimes_spec ((List.range (N + 1)).map (snapAt c p t t0)) M
    j (N - k) y (by simp; omega) hy2
  rw [hz1]
  rw [getElem?_range_map _ _ _ (by omega)] at hz2
  simp only [Option.map_some', snapAt_content, Option.some.injEq] at hz2
  exact hz2.symm

/-- C1 witness: 3 distinct pushes, 2 undos, 1 redo with maximum size 10 land
on the content of push 2. -/
theorem history_linearity_witness :
    (redoTimes (undoTimes (pushUpTo natRepr (fun _ => 0) (fun _ => 0) 10 0 3) 2) 1).content =
      natRepr 2 :=
  history_linearity natRepr (fun _ => 0) (fun _ => 0) 10 0 3 2 1 (by decide)
    (by decide) (by decide) (by decide)

/-- C1 counterexample: with the default maximum size 100, 100 successively
distinct pushes (contents "1", …, "100" on initial content "0") followed by
100 undos and 0 redos do NOT land on the content after 0 pushes ("0"): the
100th push evicted the oldest snapshot, so the deepest undo stops at "1". -/
theorem history_linearity_cex :
    ¬ ((redoTimes (undoTimes (pushUpTo natRepr (fun _ => 0) (fun _ => 0) 100 0 100) 100)
        0).content = natRepr (100 - 100 + 0)) := by decide

/-!
### Resource-reference reconciler

Translated from `parseResourceReferences` / `checkMissingResources` in
`src/components/MarkdownEditor.tsx` (lines 622-657).  The two JS regexes
`/!\[.*?\]\(((?!http|https|ftp)[^)]+)\)/g` and
`/photos:\s*\n\s*-\s*([^\s].+)/g` are embedded as explicit backtracking
scanners over `List Char` with the exact JS semantics: `.` excludes line
terminators, `\s` is the JS whitespace class, `.*?` is lazy with
backtracking, `[^)]+` is greedy, and the global flag resumes scanning after
each match end.  Fuel arguments bound the recursion; the wrappers pass
`length + 1`, which is always sufficient since every step consumes at least
one character.
-/

/-- The JS `\s` character class (whitespace, including the Unicode members). -/
def isJsWs (ch : Char) : Bool :=
  ch = ' ' || ch = '\t' || ch = '\n' || ch = '\r' || ch = '\x0b' || ch = '\x0c' ||
  ch.toNat = 0xa0 || ch.toNat = 0x1680 ||
  (0x2000 ≤ ch.toNat && ch.toNat ≤ 0x200a) ||
  ch.toNat = 0x2028 || ch.toNat = 0x2029 || ch.toNat = 0x202f ||
  ch.toNat = 0x205f || ch.toNat = 0x3000 || ch.toNat = 0xfeff

/-- JS line terminators, which `.` does not match. -/
def isLineTerm (ch : Char) : Bool :=
  ch = '\n' || ch = '\r' || ch.toNat = 0x2028 || ch.toNat = 0x2029

def hasPfx : List Char → List Char → Bool
  | [], _ => true
  | _ :: _, [] => false
  | p :: ps, ch :: rest => p = ch && hasPfx ps rest

/-- `String.startsWith` as used by the JS code, via `hasPfx` on the data. -/
def strStarts (p s : String) : Bool := hasPfx p.data s.data

/-- The negative lookahead `(?!http|https|ftp)` fails exactly on these prefixes. -/
def startsHttpFtp (cs : List Char) : Bool :=
  hasPfx "http".data cs || hasPfx "https".data cs || hasPfx "ftp".data cs

/-- `[^)]+\)`: the greedy character class runs to the first `)` (newlines
allowed); the match fails if it would be empty or no `)` follows. -/
def scanTarget (cs : List Char) : Option (List Char × List Char) :=
  match cs.dropWhile (fun ch => ch ≠ ')') with
  | ')' :: rest =>
      if (cs.takeWhile (fun ch => ch ≠ ')')).isEmpty then none
      else some (cs.takeWhile (fun ch => ch ≠ ')'), rest)
  | _ => none

/-- The `.*?\]\(((?!http|https|ftp)[^)]+)\)` part after `![`: lazily extend
`.*?` (never across a line terminator); at each `](` try the lookahead and
the target, falling back to extending `.*?` on failure. -/
def lazyDotF : Nat → List Char → Option (List Char × List Char)
  | 0, _ => none
  | _+1, [] => none
  | fuel+1, ch :: rest =>
      if ch = ']' ∧ rest.head? = some '(' then
        if startsHttpFtp rest.tail then lazyDotF fuel rest
        else
          match scanTarget rest.tail with
          | some pr => some pr
          | none => lazyDotF fuel rest
      else if isLineTerm ch then none
      else lazyDotF fuel rest

def imgMatchAfterBang (cs : List Char) : Option (List Char × List Char) :=
  if cs.head? = some '[' then lazyDotF (cs.tail.length + 1) cs.tail else none

def scanImagesF : Nat → List Char → List (List Char)
  | 0, _ => []
  | _+1, [] => []
  | fuel+1, ch :: rest =>
      if ch = '!' then
        match imgMatchAfterBang rest with
        | some pr => pr.1 :: scanImagesF fuel pr.2
        | none => scanImagesF fuel rest
      else scanImagesF fuel rest

/-- All capture groups of `imagePattern.exec` run globally over the text. -/
def scanImages (cs : List Char) : List (List Char) := scanImagesF (cs.length + 1) cs

/-- One attempted match of `/photos:\s*\n\s*-\s*([^\s].+)/` at the head of
`cs`: literal `photos:`, a whitespace run containing a newline, `-`, more
whitespace, then the capture `[^\s].+` (a non-whitespace character followed
by at least one more non-line-terminator character, greedily to end of
line).  Returns the capture and the remainder after the match. -/
def photosMatchAt (cs : List Char) : Option (List Char × List Char) :=
  if hasPfx "photos:".data cs then
    if ((cs.drop 7).takeWhile isJsWs).contains '\n' then
      match (cs.drop 7).dropWhile isJsWs with
      | '-' :: r2 =>
          match r2.dropWhile isJsWs with
          | c :: r3 =>
              if 1 ≤ (r3.takeWhile (fun ch => !(isLineTerm ch))).length then
                some (c :: r3.takeWhile (fun ch => !(isLineTerm ch)),
                  r3.drop (r3.takeWhile (fun ch => !(isLineTerm ch))).length)
              else none
          | [] => none
      | _ => none
    else none
  else none

def photosScanF : Nat → List Char → List (List Char)
  | 0, _ => []
  | _+1, [] => []
  | fuel+1, ch :: rest =>
      match photosMatchAt (ch :: rest) with
      | some pr => pr.1 :: photosScanF fuel pr.2
      | none => photosScanF fuel rest

/-- All capture groups of `photosPattern.exec` run globally over the text. -/
def photosScan (cs : List Char) : List (List Char) := photosScanF (cs.length + 1) cs

/-- JS `String.prototype.trim()`. -/
def jsTrim (s : String) : String :=
  String.mk (((s.data.dropWhile isJsWs).reverse.dropWhile isJsWs).reverse)

def dedupeAux : List String → List String → List String
  | _, [] => []
  | seen, x :: xs => if x ∈ seen then dedupeAux seen xs else x :: dedupeAux (x :: seen) xs

/-- `[...new Set(resources)]`: deduplicate keeping first occurrences. -/
def dedupeKeepFirst (l : List String) : List String := dedupeAux [] l

/-- The photos-side contributions: each capture is pushed when truthy and not
starting with `http`, after `trim()`. -/
def photosRefs (markdown : String) : List String :=
  (photosScan markdown.data).filterMap (fun cap =>
    if String.mk cap != "" && !(strStarts "http" (String.mk cap)) then
      some (jsTrim (String.mk cap))
    else none)

/-- `parseResourceReferences`: inline image targets then photos references,
deduplicated, dropping empty strings and the bare `-` marker. -/
def parseResourceReferences (markdown : String) : List String :=
  if markdown = "" then []
  else
    (dedupeKeepFirst (((scanImages markdown.data).map String.mk) ++
      photosRefs markdown)).filter (fun r => r != "" && r != "-")

def hasSfx (pat s : List Char) : Bool := hasPfx pat.reverse s.reverse

/-- `/\.(jpg|jpeg|png|gif|svg|webp)$/i`: the name ends (case-insensitively,
per the JS canonicalization of the ASCII pattern) in one of the image
extensions. -/
def isImageExt (n : String) : Bool :=
  [".jpg", ".jpeg", ".png", ".gif", ".svg", ".webp"].any
    (fun suf => hasSfx suf.data (n.data.map Char.toLower))

inductive ResKind where
  | image
  | other
deriving Repr, DecidableEq

structure MissingResource where
  name : String
  type : ResKind
deriving Repr, DecidableEq

/-- `checkMissingResources`: references absent from the file-name set,
classified by image extension. -/
def checkMissingResources (mdContent : String) (fileNames : List String) :
    List MissingResource :=
  ((parseResourceReferences mdContent).filter (fun r => !(fileNames.contains r))).map
    (fun n => { name := n, type := if isImageExt n then ResKind.image else ResKind.other })

/-! ### Reconciler lemmas -/

theorem hasPfx_of_hasPfx_takeWhile (pat : List Char) (p : Char → Bool) :
    ∀ l, hasPfx pat (l.takeWhile p) = true → hasPfx pat l = true := by
  induction pat with
  | nil => intro l _; rfl
  | cons p0 ps ih =>
      intro l h
      cases l with
      | nil => simpa using h
      | cons c cs =>
          by_cases hc : p c
          · rw [List.takeWhile_cons_of_pos hc] at h
            simp only [hasPfx, Bool.and_eq_true] at h ⊢
            exact ⟨h.1, ih cs h.2⟩
          · rw [List.takeWhile_cons_of_neg hc] at h
            simp [hasPfx] at h

theorem hasPfx_append (pat : List Char) :
    ∀ a b, hasPfx pat a = true → hasPfx pat (a ++ b) = true := by
  induction pat with
  | nil => intro a b _; rfl
  | cons p0 ps ih =>
      intro a b h
      cases a with
      | nil => simp [hasPfx] at h
      | cons c cs =>
          simp only [List.cons_append, hasPfx, Bool.and_eq_true] at h ⊢
          exact ⟨h.1, ih cs b h.2⟩

theorem hasPfx_takeWhile_false (pat : List Char) (p : Char → Bool) (l : List Char)
    (h : hasPfx pat l = false) : hasPfx pat (l.takeWhile p) = false := by
  by_cases hq : hasPfx pat (l.takeWhile p) = true
  · exact absurd (hasPfx_of_hasPfx_takeWhile pat p l hq) (by simp [h])
  · simpa using hq

theorem startsHttpFtp_takeWhile (p : Char → Bool) (l : List Char)
    (h : startsHttpFtp l = false) : startsHttpFtp (l.takeWhile p) = false := by
  unfold startsHttpFtp at h ⊢
  simp only [Bool.or_eq_false_iff] at h ⊢
  exact ⟨⟨hasPfx_takeWhile_false _ p l h.1.1, hasPfx_takeWhile_false _ p l h.1.2⟩,
    hasPfx_takeWhile_false _ p l h.2⟩

theorem dropWhile_head_not (p : Char → Bool) :
    ∀ (l : List Char) c r, l.dropWhile p = c :: r → p c = false := by
  intro l
  induction l with
  | nil => intro c r h; simp [List.dropWhile] at h
  | cons a as ih =>
      intro c r h
      by_cases hp : p a
      · rw [List.dropWhile_cons_of_pos hp] at h
        exact ih c r h
      · rw [List.dropWhile_cons_of_neg hp] at h
        injection h with h1 h2
        subst h1
        simpa using hp

theorem scanTarget_no_scheme (cs tgt rest : List Char)
    (h : scanTarget cs = some (tgt, rest)) (hcs : startsHttpFtp cs = false) :
    startsHttpFtp tgt = false := by
  have htgt : tgt = cs.takeWhile (fun ch => ch ≠ ')') := by
    unfold scanTarget at h
    split at h
    case h_1 =>
      split at h
      · simp at h
      · injection h with h'
        injection h' with ha hb
        exact ha.symm
    case h_2 => simp at h
  rw [htgt]
  exact startsHttpFtp_takeWhile _ cs hcs

theorem lazyDotF_no_scheme : ∀ fuel cs tgt rest,
    lazyDotF fuel cs = some (tgt, rest) → startsHttpFtp tgt = false := by
  intro fuel
  induction fuel with
  | zero => intro cs tgt rest h; simp [lazyDotF] at h
  | succ fuel ih =>
      intro cs tgt rest h
      cases cs with
      | nil => simp [lazyDotF] at h
      | cons ch cs' =>
          unfold lazyDotF at h
          split at h
          case isTrue hbr =>
            split at h
            case isTrue hs => exact ih _ _ _ h
            case isFalse hs =>
              split at h
              case h_1 pr hpr =>
                obtain ⟨a, b⟩ := pr
                injection h with h'
                injection h' with ha hb
                subst ha
                exact scanTarget_no_scheme _ _ _ hpr (by simpa using hs)
              case h_2 => exact ih _ _ _ h
          case isFalse hbr =>
            split at h
            case isTrue => simp at h
            case isFalse => exact ih _ _ _ h

theorem scanImagesF_no_scheme : ∀ fuel cs tgt, tgt ∈ scanImagesF fuel cs →
    startsHttpFtp tgt = false := by
  intro fuel
  induction fuel with
  | zero => intro cs tgt h; simp [scanImagesF] at h
  | succ fuel ih =>
      intro cs tgt h
      cases cs with
      | nil => simp [scanImagesF] at h
      | cons ch cs' =>
          unfold scanImagesF at h
          split at h
          case isTrue =>
            split at h
            case h_1 pr hpr =>
              obtain ⟨a, b⟩ := pr
              rcases List.mem_cons.mp h with he | hm
              · subst he
                unfold imgMatchAfterBang at hpr
                split at hpr
                · exact lazyDotF_no_scheme _ _ _ _ hpr
                · simp at hpr
              · exact ih _ _ hm
            case h_2 hpr => exact ih _ _ h
          case isFalse => exact ih _ _ h

theorem mem_dedupeAux : ∀ (seen l : List String) x, x ∈ dedupeAux seen l → x ∈ l := by
  intro seen l
  induction l generalizing seen with
  | nil => intro x h; simp [dedupeAux] at h
  | cons a as ih =>
      intro x h
      unfold dedupeAux at h
      split at h
      · exact List.mem_cons_of_mem a (ih _ x h)
      · rcases List.mem_cons.mp h with he | hm
        · exact he ▸ List.mem_cons_self a as
        · exact List.mem_cons_of_mem a (ih _ x hm)

theorem photosMatchAt_shape (cs cap rest : List Char)
    (h : photosMatchAt cs = some (cap, rest)) :
    ∃ c line, cap = c :: line ∧ isJsWs c = false := by
  unfold photosMatchAt at h
  split at h
  case isTrue =>
    split at h
    case isTrue =>
      split at h
      case h_1 r2 heq2 =>
        split at h
        case h_1 c r3 heq3 =>
          split at h
          case isTrue =>
            injection h with h'
            injection h' with ha hb
            exact ⟨c, _, ha.symm, dropWhile_head_not isJsWs r2 c r3 heq3⟩
          case isFalse => simp at h
        case h_2 => simp at h
      case h_2 => simp at h
    case isFalse => simp at h
  case isFalse => simp at h

theorem photosScanF_shape : ∀ fuel cs cap, cap ∈ photosScanF fuel cs →
    ∃ c line, cap = c :: line ∧ isJsWs c = false := by
  intro fuel
  induction fuel with
  | zero => intro cs cap h; simp [photosScanF] at h
  | succ fuel ih =>
      intro cs cap h
      cases cs with
      | nil => simp [photosScanF] at h
      | cons ch cs' =>
          unfold photosScanF at h
          split at h
          case h_1 pr hpr =>
            obtain ⟨a, b⟩ := pr
            rcases List.mem_cons.mp h with he | hm
            · subst he
              exact photosMatchAt_shape _ _ _ hpr
            · exact ih _ _ hm
          case h_2 => exact ih _ _ h

theorem trim_keeps_pfx_false (c : Char) (line : List Char) (pat : List Char)
    (hws : isJsWs c = false)
    (hp : hasPfx pat (c :: line) = false) :
    hasPfx pat (jsTrim (String.mk (c :: line))).data = false := by
  have hdrop : (c :: line).dropWhile isJsWs = c :: line :=
    List.dropWhile_cons_of_neg (by simp [hws])
  rw [← Bool.not_eq_true]
  intro hq
  have hdecomp :
      ((c :: line).reverse.dropWhile isJsWs).reverse ++
        ((c :: line).reverse.takeWhile isJsWs).reverse = c :: line := by
    rw [← List.reverse_append, List.takeWhile_append_dropWhile, List.reverse_reverse]
  have : hasPfx pat (c :: line) = true := by
    rw [← hdecomp]
    apply hasPfx_append
    have hjt : (jsTrim (String.mk (c :: line))).data =
        ((c :: line).reverse.dropWhile isJsWs).reverse := by
      simp only [jsTrim, hdrop]
    rw [hjt] at hq
    exact hq
  rw [this] at hp
  exact absurd hp (by simp)

theorem photosRefs_not_http (markdown : String) (r : String)
    (h : r ∈ photosRefs markdown) : strStarts "http" r = false := by
  unfold photosRefs at h
  rw [List.mem_filterMap] at h
  obtain ⟨cap, hmem, hf⟩ := h
  obtain ⟨c, line, hcl, hws⟩ := photosScanF_shape _ _ _ hmem
  subst hcl
  by_cases hcond :
      (String.mk (c :: line) != "" && !(strStarts "http" (String.mk (c :: line)))) = true
  · rw [if_pos hcond] at hf
    injection hf with hf'
    subst hf'
    simp only [Bool.and_eq_true, Bool.not_eq_true'] at hcond
    exact trim_keeps_pfx_false c line "http".data hws hcond.2
  · rw [if_neg hcond] at hf
    simp at hf

theorem parseRefs_not_http (md : String) (r : String)
    (h : r ∈ parseResourceReferences md) : strStarts "http" r = false := by
  unfold parseResourceReferences at h
  split at h
  · simp at h
  · rw [List.mem_filter] at h
    have h1 := mem_dedupeAux _ _ _ h.1
    rw [List.mem_append] at h1
    cases h1 with
    | inl hi =>
        rw [List.mem_map] at hi
        obtain ⟨tgt, htgt, he⟩ := hi
        have hns := scanImagesF_no_scheme _ _ _ htgt
        subst he
        unfold startsHttpFtp at hns
        simp only [Bool.or_eq_false_iff] at hns
        exact hns.1.1
    | inr hp => exact photosRefs_not_http md r hp

theorem checkMissing_not_http (md : String) (fileNames : List String)
    (r : MissingResource) (h : r ∈ checkMissingResources md fileNames) :
    strStarts "http" r.name = false := by
  unfold checkMissingResources at h
  rw [List.mem_map] at h
  obtain ⟨n, hn, he⟩ := h
  subst he
  rw [List.mem_filter] at hn
  exact parseRefs_not_http md n hn.1

theorem checkMissing_type (md : String) (fileNames : List String)
    (r : MissingResource) (h : r ∈ checkMissingResources md fileNames) :
    (r.type = ResKind.image ↔ isImageExt r.name = true) := by
  unfold checkMissingResources at h
  rw [List.mem_map] at h
  obtain ⟨n, hn, he⟩ := h
  subst he
  by_cases hi : isImageExt n = true
  · simp [hi]
  · simp [hi]

/-- C3 (amended): on the example text the reconciler reports exactly
`pic.png` as a missing image; no reported name ever begins with `http` (hence
nor `https`); inline image targets additionally never begin with `ftp`; and a
reported name is classified as an image exactly when its extension is one of
jpg/jpeg/png/gif/svg/webp case-insensitively.  (A cover-asset `photos:`
reference beginning with `ftp` IS reported — see the counterexample.) -/
theorem reconciler_correctness :
    checkMissingResources "![a](pic.png)\n![b](http://x.com/y.png)" [] =
      [{ name := "pic.png", type := ResKind.image }] ∧
    (∀ md fileNames r, r ∈ checkMissingResources md fileNames →
      strStarts "http" r.name = false) ∧
    (∀ cs tgt, tgt ∈ scanImages cs →
      hasPfx "http".data tgt = false ∧ hasPfx "ftp".data tgt = false) ∧
    (∀ md fileNames r, r ∈ checkMissingResources md fileNames →
      (r.type = ResKind.image ↔ isImageExt r.name = true)) := by
  refine ⟨by decide, fun md f r h => checkMissing_not_http md f r h, ?_,
    fun md f r h => checkMissing_type md f r h⟩
  intro cs tgt h
  have hns := scanImagesF_no_scheme _ _ _ h
  unfold startsHttpFtp at hns
  simp only [Bool.or_eq_false_iff] at hns
  exact ⟨hns.1.1, hns.2⟩

/-- C3 counterexample: a cover-asset reference beginning with the network
scheme `ftp` IS reported by the missing-resource computation (the photos-side
filter only excludes `http`), contradicting the claim that targets beginning
with http/https/ftp are never reported. -/
theorem reconciler_cex :
    checkMissingResources "photos:\n- ftp://x.com/y.png" [] =
      [{ name := "ftp://x.com/y.png", type := ResKind.image }] ∧
    strStarts "ftp" "ftp://x.com/y.png" = true := by decide

/-- C3 witness: the universal parts of the theorem instantiated at concrete
reported resources. -/
theorem reconciler_correctness_witness :
    strStarts "http" "pic.png" = false ∧
    (hasPfx "http".data "pic.png".data = false ∧ hasPfx "ftp".data "pic.png".data = false) ∧
    ((ResKind.image = ResKind.image) ↔ isImageExt "pic.png" = true) :=
  ⟨reconciler_correctness.2.1 "![a](pic.png)" [] ⟨"pic.png", ResKind.image⟩ (by decide),
   reconciler_correctness.2.2.1 "![a](pic.png)".data "pic.png".data (by decide),
   reconciler_correctness.2.2.2 "![a](pic.png)" [] ⟨"pic.png", ResKind.image⟩ (by decide)⟩

/-!
### Workspace file store, tabs and editor operations

Translated from `src/components/MarkdownEditor.tsx`: the `useState` cells
(`files`, `tabs`, `activeTab`, `currentFile`, `content`, `missingResources`)
plus the history manager become one state record; each event handler becomes
a state transformer.  `window.confirm`/`alert` prompts are modeled as
accepted/aborting exactly as the code's control flow does.
-/

inductive FileType where
  | markdown
  | image
  | other
deriving Repr, DecidableEq

inductive FileContent where
  | text (s : String)
  | binary (bytes : List Nat)
deriving Repr, DecidableEq

structure WorkspaceFile where
  name : String
  type : FileType
  content : FileContent
  isNew : Bool
deriving Repr, DecidableEq

structure Tab where
  id : String
  fileName : String
  content : String
deriving Repr, DecidableEq

structure EditorState where
  files : List WorkspaceFile
  tabs : List Tab
  activeTab : String
  currentFile : String
  content : String
  missingResources : List MissingResource
  hm : HistoryManager
deriving Repr, DecidableEq

/-- One step of the dynamically built pattern `new RegExp(fileName)`: `.` in
the file name acts as the regex wildcard (any non-line-terminator); the other
characters occurring in the file names exercised here are literals. -/
def matchFilePat : List Char → List Char → Option (List Char)
  | [], rest => some rest
  | _ :: _, [] => none
  | p :: ps, c :: rest =>
      if p = '.' then (if isLineTerm c then none else matchFilePat ps rest)
      else if p = c then matchFilePat ps rest
      else none

/-- The `.*?\]\(PAT\)` part of `new RegExp("!\\[.*?\\]\\(" + fileName + "\\)", "g")`
after `![`, with the same lazy/backtracking semantics as `lazyDotF`. -/
def lazyDotPatF (pat : List Char) : Nat → List Char → Option (List Char)
  | 0, _ => none
  | _+1, [] => none
  | fuel+1, ch :: rest =>
      if ch = ']' ∧ rest.head? = some '(' then
        match matchFilePat pat rest.tail with
        | some (')' :: rest2) => some rest2
        | _ => lazyDotPatF pat fuel rest
      else if isLineTerm ch then none
      else lazyDotPatF pat fuel rest

def replaceImageRefsF (pat repl : List Char) : Nat → List Char → List Char
  | 0, cs => cs
  | _+1, [] => []
  | fuel+1, ch :: rest =>
      if ch = '!' ∧ rest.head? = some '[' then
        match lazyDotPatF pat (rest.tail.length + 1) rest.tail with
        | some rest2 => repl ++ replaceImageRefsF pat repl fuel rest2
        | none => ch :: replaceImageRefsF pat repl fuel rest
      else ch :: replaceImageRefsF pat repl fuel rest

/-- `content.replace(new RegExp(`!\[.*?\]\(fileName\)`, 'g'), repl)`. -/
def replaceImageRefs (fileName repl content : String) : String :=
  String.mk (replaceImageRefsF fileName.data repl.data (content.data.length + 1)
    content.data)

def containsSub (pat : List Char) : List Char → Bool
  | [] => pat.isEmpty
  | c :: rest => hasPfx pat (c :: rest) || containsSub pat rest

/-- `content.split('\n')`. -/
def splitLines : List Char → List (List Char)
  | [] => [[]]
  | c :: rest =>
      if c = '\n' then [] :: splitLines rest
      else
        match splitLines rest with
        | l :: ls => (c :: l) :: ls
        | [] => [[c]]

/-- `lines.join('\n')`. -/
def joinLines : List (List Char) → List Char
  | [] => []
  | [l] => l
  | l :: ls => l ++ '\n' :: joinLines ls

/-- The photos cover-line update shared by the delete cascade
(`newLine = "- "`) and the rename cascade (`newLine = "- " ++ newName`):
find the first line whose `trim()` is `photos:`; when the following line
exists and `includes(fileName)`, replace it by `newLine`; rejoin.  (When
`photos:` is the last line the JS code would throw on `undefined.includes`;
the model leaves the lines unchanged — no claim exercises that path.) -/
def updateCoverLine (fileName newLine content : String) : String :=
  String.mk (joinLines (
    match (splitLines content.data).findIdx?
        (fun l => jsTrim (String.mk l) = "photos:") with
    | some i =>
        match (splitLines content.data)[i+1]? with
        | some l =>
            if containsSub fileName.data l then
              (splitLines content.data).set (i + 1) newLine.data
            else splitLines content.data
        | none => splitLines content.data
    | none => splitLines content.data))

/-- `generateDefaultTemplate` with the date string as a parameter. -/
def generateDefaultTemplate (dateStr : String) : String :=
  "---\ncategories:\n- \ndate: " ++ dateStr ++
    "\nphotos:\n- \ntags:\n- \ntitle: \n---\n# 说明&介绍\n\n<!--more-->\n\n# 下载链接\n\n"

/-- The `while (files.some(f => f.name === newFileName))` counter loop of
`createNewFile`, with fuel `names.length + 1` (always sufficient by
pigeonhole). -/
def findFreeName (names : List String) : Nat → Nat → String
  | counter, 0 => "index-" ++ natRepr counter ++ ".md"
  | counter, fuel+1 =>
      if ("index-" ++ natRepr counter ++ ".md") ∈ names then
        findFreeName names (counter + 1) fuel
      else "index-" ++ natRepr counter ++ ".md"

/-- `createNewFile`: create `index.md`, auto-suffixing `index-k.md` when taken;
open a tab on it, seed content, push history, clear missing resources. -/
def createNewFile (s : EditorState) (dateStr : String) (ts : Nat) : EditorState :=
  if s.files.any (fun f => f.name = "index.md") then
    { s with
      files := s.files ++
        [{ name := findFreeName (s.files.map WorkspaceFile.name) 1 (s.files.length + 1)
           type := FileType.markdown
           content := FileContent.text (generateDefaultTemplate dateStr)
           isNew := true }]
      currentFile := findFreeName (s.files.map WorkspaceFile.name) 1 (s.files.length + 1)
      content := generateDefaultTemplate dateStr
      tabs := s.tabs ++
        [{ id := findFreeName (s.files.map WorkspaceFile.name) 1 (s.files.length + 1)
           fileName := findFreeName (s.files.map WorkspaceFile.name) 1 (s.files.length + 1)
           content := generateDefaultTemplate dateStr }]
      activeTab := findFreeName (s.files.map WorkspaceFile.name) 1 (s.files.length + 1)
      hm := s.hm.addHistory (generateDefaultTemplate dateStr) 0 ts
      missingResources := [] }
  else
    { s with
      files := s.files ++
        [{ name := "index.md"
           type := FileType.markdown
           content := FileContent.text (generateDefaultTemplate dateStr)
           isNew := true }]
      currentFile := "index.md"
      content := generateDefaultTemplate dateStr
      tabs := s.tabs ++
        [{ id := "index.md", fileName := "index.md"
           content := generateDefaultTemplate dateStr }]
      activeTab := "index.md"
      hm := s.hm.addHistory (generateDefaultTemplate dateStr) 0 ts
      missingResources := [] }

/-- `closeTab`: drop the tab; when it was active, activate the first
remaining tab (loading its content) or clear everything. -/
def closeTab (s : EditorState) (tabId : String) : EditorState :=
  if s.activeTab = tabId then
    match s.tabs.filter (fun t => t.id ≠ tabId) with
    | firstTab :: rest =>
        { s with
          tabs := firstTab :: rest
          activeTab := firstTab.id
          content := firstTab.content
          currentFile := firstTab.fileName }
    | [] => { s with tabs := [], activeTab := "", content := "", currentFile := "" }
  else { s with tabs := s.tabs.filter (fun t => t.id ≠ tabId) }

/-- The markdown rewrite performed when an image file is deleted. -/
def deleteCascade (fileName : String) (files : List WorkspaceFile) :
    List WorkspaceFile :=
  files.map (fun f =>
    if f.type = FileType.markdown then
      match f.content with
      | FileContent.text c =>
          { f with content := FileContent.text (updateCoverLine fileName "- "
              (replaceImageRefs fileName "![图片已删除]()" c)) }
      | FileContent.binary _ => f
    else f)

def applyDelete (s1 : EditorState) (fileName : String) : EditorState :=
  { s1 with
    files :=
      if (s1.files.find? (fun f => f.name = fileName)).map WorkspaceFile.type =
          some FileType.image then
        deleteCascade fileName (s1.files.filter (fun f => f.name ≠ fileName))
      else s1.files.filter (fun f => f.name ≠ fileName) }

/-- `handleDeleteFile` with the `window.confirm` accepted: close the tab when
the deleted file is the current one, drop the entry, and (for images) rewrite
every markdown file's references. -/
def handleDeleteFile (s : EditorState) (fileName : String) : EditorState :=
  applyDelete (if s.currentFile = fileName then closeTab s fileName else s) fileName

/-- `handleMarkdownImport` (the `file.text()` suspension resolved to
`content`): append the file without any collision check, open a tab on it,
and recompute missing resources against the pre-import file set (the stale
`files` closure). -/
def handleMarkdownImport (s : EditorState) (name content : String) : EditorState :=
  { s with
    files := s.files ++
      [{ name := name, type := FileType.markdown,
         content := FileContent.text content, isNew := false }]
    tabs := s.tabs ++ [{ id := name, fileName := name, content := content }]
    activeTab := name
    currentFile := name
    content := content
    missingResources := checkMissingResources content (s.files.map WorkspaceFile.name) }

/-- `switchTab`: activate the tab, load its content, and call
`addHistory(tab.content, 0)` on the shared history manager. -/
def switchTab (s : EditorState) (tabId : String) (ts : Nat) : EditorState :=
  match s.tabs.find? (fun t => t.id = tabId) with
  | some tab =>
      { s with
        activeTab := tabId
        content := tab.content
        hm := s.hm.addHistory tab.content 0 ts
        currentFile := tab.fileName }
  | none => s

/-- `![${newName.split('.')[0]}](${newName})`. -/
def renameRepl (newName : String) : String :=
  "![" ++ String.mk (newName.data.takeWhile (fun ch => ch ≠ '.')) ++ "](" ++
    newName ++ ")"

def renameCascade (oldName newName : String) (f : WorkspaceFile) : WorkspaceFile :=
  if f.name = oldName then { f with name := newName }
  else if f.type = FileType.markdown then
    match f.content with
    | FileContent.text c =>
        { f with content := FileContent.text (updateCoverLine oldName
            ("- " ++ newName) (replaceImageRefs oldName (renameRepl newName) c)) }
    | FileContent.binary _ => f
  else f

/-- `handleRenameFile`: abort (alert) on a name collision; otherwise rename
the entry, rewrite references in every other markdown file, retarget tabs
when the renamed file is markdown, and update the open buffer. -/
def handleRenameFile (s : EditorState) (oldName newName : String) : EditorState :=
  if s.files.any (fun f => f.name = newName) then s
  else
    { s with
      files := s.files.map (renameCascade oldName newName)
      tabs :=
        if (s.files.find? (fun f => f.name = oldName)).map WorkspaceFile.type =
            some FileType.markdown then
          s.tabs.map (fun tab =>
            if tab.id = oldName then { tab with id := newName, fileName := newName }
            else tab)
        else s.tabs
      currentFile :=
        if (s.files.find? (fun f => f.name = oldName)).map WorkspaceFile.type =
            some FileType.markdown ∧ s.currentFile = oldName then newName
        else s.currentFile
      activeTab :=
        if (s.files.find? (fun f => f.name = oldName)).map WorkspaceFile.type =
            some FileType.markdown ∧ s.currentFile = oldName then newName
        else s.activeTab
      content :=
        if s.currentFile ≠ "" ∧
            (s.files.find? (fun f => f.name = s.currentFile)).map WorkspaceFile.type =
              some FileType.markdown then
          replaceImageRefs oldName (renameRepl newName) s.content
        else s.content }

/-- Per-file step of `handleImageConversionConfirm`: replace an existing
entry of the same name in place, else append; drop the name from the
missing-resource list. -/
def conversionConfirmAdd (s : EditorState) (pf : WorkspaceFile) : EditorState :=
  { s with
    files :=
      match s.files.findIdx? (fun f => f.name = pf.name) with
      | some i => s.files.set i pf
      | none => s.files ++ [pf]
    missingResources := s.missingResources.filter (fun r => r.name ≠ pf.name) }

/-- Per-file step of `handleImageConversionCancel` (and of the WebP branch of
`handleFiles`): append without any collision check. -/
def imageImportAdd (s : EditorState) (pf : WorkspaceFile) : EditorState :=
  { s with
    files := s.files ++ [pf]
    missingResources := s.missingResources.filter (fun r => r.name ≠ pf.name) }

/-! ### Editor-operation lemmas and claim theorems -/

theorem findFreeName_spec (names : List String) :
    ∀ fuel counter,
      (∃ m, m < fuel ∧ ("index-" ++ natRepr (counter + m) ++ ".md") ∉ names) →
      findFreeName names counter fuel ∉ names := by
  intro fuel
  induction fuel with
  | zero =>
      intro counter h
      obtain ⟨m, hm, _⟩ := h
      omega
  | succ fuel ih =>
      intro counter h
      obtain ⟨m, hm, hnotin⟩ := h
      unfold findFreeName
      split
      case isTrue hin =>
        apply ih
        have hm0 : m ≠ 0 := by
          intro h0
          subst h0
          simp only [Nat.add_zero] at hnotin
          exact hnotin hin
        refine ⟨m - 1, by omega, ?_⟩
        have harith : counter + 1 + (m - 1) = counter + m := by omega
        rw [harith]
        exact hnotin
      case isFalse hin => exact hin

theorem natRepr_name_injective :
    Function.Injective (fun m : Nat => "index-" ++ natRepr (1 + m) ++ ".md") := by
  intro a b hab
  simp only at hab
  have hd := congrArg String.data hab
  simp only [String.data_append] at hd
  have h1 := List.append_cancel_right hd
  have h2 := List.append_cancel_left h1
  have h3 : natRepr (1 + a) = natRepr (1 + b) := String.ext h2
  have := natRepr_injective h3
  omega

theorem exists_free_index (names : List String) :
    ∃ m, m < names.length + 1 ∧ ("index-" ++ natRepr (1 + m) ++ ".md") ∉ names := by
  by_contra hcon
  push_neg at hcon
  have hnodup : ((List.range (names.length + 1)).map
      (fun m => "index-" ++ natRepr (1 + m) ++ ".md")).Nodup :=
    List.Nodup.map natRepr_name_injective (List.nodup_range _)
  have hsub : ((List.range (names.length + 1)).map
      (fun m => "index-" ++ natRepr (1 + m) ++ ".md")).toFinset ⊆ names.toFinset := by
    intro x hx
    rw [List.mem_toFinset, List.mem_map] at hx
    obtain ⟨m, hmr, he⟩ := hx
    rw [List.mem_range] at hmr
    rw [List.mem_toFinset]
    exact he ▸ hcon m hmr
  have hcard1 := List.toFinset_card_of_nodup hnodup
  have hcard2 := Finset.card_le_card hsub
  have hcard3 := List.toFinset_card_le names
  simp only [List.length_map, List.length_range] at hcard1
  omega

theorem createNewFile_names (s : EditorState) (dateStr : String) (ts : Nat)
    (h : (s.files.map WorkspaceFile.name).Nodup) :
    ((createNewFile s dateStr ts).files.map WorkspaceFile.name).Nodup := by
  unfold createNewFile
  split
  case isTrue hex =>
    simp only [List.map_append, List.map_cons, List.map_nil]
    rw [List.nodup_append]
    refine ⟨h, List.nodup_singleton _, ?_⟩
    intro x hx hmem
    rw [List.mem_singleton] at hmem
    subst hmem
    have hfree : findFreeName (s.files.map WorkspaceFile.name) 1
        (s.files.length + 1) ∉ s.files.map WorkspaceFile.name := by
      apply findFreeName_spec
      have := exists_free_index (s.files.map WorkspaceFile.name)
      simpa [List.length_map] using this
    exact hfree hx
  case isFalse hex =>
    simp only [List.map_append, List.map_cons, List.map_nil]
    rw [List.nodup_append]
    refine ⟨h, List.nodup_singleton _, ?_⟩
    intro x hx hmem
    rw [List.mem_singleton] at hmem
    subst hmem
    apply hex
    rw [List.mem_map] at hx
    obtain ⟨f, hf, he⟩ := hx
    rw [List.any_eq_true]
    exact ⟨f, hf, by simp [he]⟩

theorem renameCascade_name (oldName newName : String) (f : WorkspaceFile) :
    (renameCascade oldName newName f).name =
      if f.name = oldName then newName else f.name := by
  obtain ⟨nm, tp, ct, isn⟩ := f
  unfold renameCascade
  split
  case isTrue hold => rfl
  case isFalse hold =>
    split
    case isTrue htp => cases ct <;> rfl
    case isFalse htp => rfl

theorem rename_names (s : EditorState) (oldName newName : String)
    (h : (s.files.map WorkspaceFile.name).Nodup) :
    ((handleRenameFile s oldName newName).files.map WorkspaceFile.name).Nodup := by
  unfold handleRenameFile
  split
  case isTrue => exact h
  case isFalse hnew =>
    simp only []
    have hmaps : (s.files.map (renameCascade oldName newName)).map WorkspaceFile.name =
        (s.files.map WorkspaceFile.name).map
          (fun x => if x = oldName then newName else x) := by
      rw [List.map_map, List.map_map]
      apply List.map_congr_left
      intro f _
      exact renameCascade_name oldName newName f
    rw [hmaps]
    have hnew' : newName ∉ s.files.map WorkspaceFile.name := by
      intro hmem
      rw [List.mem_map] at hmem
      obtain ⟨f, hf, he⟩ := hmem
      apply hnew
      rw [List.any_eq_true]
      exact ⟨f, hf, by simp [he]⟩
    apply List.Nodup.map_on ?_ h
    intro x hx y hy hxy
    by_cases hxo : x = oldName <;> by_cases hyo : y = oldName
    · rw [hxo, hyo]
    · rw [if_pos hxo, if_neg hyo] at hxy
      exact absurd (hxy ▸ hy) hnew'
    · rw [if_neg hxo, if_pos hyo] at hxy
      exact absurd (hxy ▸ hx) hnew'
    · rw [if_neg hxo, if_neg hyo] at hxy
      exact hxy

theorem conversion_names (s : EditorState) (pf : WorkspaceFile)
    (h : (s.files.map WorkspaceFile.name).Nodup) :
    ((conversionConfirmAdd s pf).files.map WorkspaceFile.name).Nodup := by
  unfold conversionConfirmAdd
  simp only []
  split
  case h_1 i hi =>
    rw [List.findIdx?_eq_some_iff_getElem] at hi
    obtain ⟨hlt, hp, _⟩ := hi
    have hpn : (s.files[i]).name = pf.name := of_decide_eq_true hp
    have hset : (s.files.set i pf).map WorkspaceFile.name =
        s.files.map WorkspaceFile.name := by
      rw [List.map_set]
      apply List.ext_getElem?
      intro n
      by_cases hn : n = i
      · subst hn
        rw [List.getElem?_set_self (by simpa using hlt)]
        rw [List.getElem?_map, List.getElem?_eq_getElem hlt]
        simp [hpn]
      · rw [List.getElem?_set_ne (by omega)]
    rw [hset]
    exact h
  case h_2 hi =>
    rw [List.findIdx?_eq_none_iff] at hi
    simp only [List.map_append, List.map_cons, List.map_nil]
    rw [List.nodup_append]
    refine ⟨h, List.nodup_singleton _, ?_⟩
    intro x hx hmem
    rw [List.mem_singleton] at hmem
    subst hmem
    rw [List.mem_map] at hx
    obtain ⟨f, hf, he⟩ := hx
    have := hi f hf
    simp [he] at this

def TabsConsistent (s : EditorState) : Prop :=
  ∀ tab ∈ s.tabs, tab.id ∈ s.files.map WorkspaceFile.name

instance (s : EditorState) : Decidable (TabsConsistent s) := by
  unfold TabsConsistent; infer_instance

theorem closeTab_parts (s : EditorState) (tid : String) :
    (closeTab s tid).tabs = s.tabs.filter (fun t => t.id ≠ tid) ∧
    (closeTab s tid).files = s.files := by
  unfold closeTab
  split
  · split
    case h_1 ft rest heq => exact ⟨heq.symm, rfl⟩
    case h_2 heq => exact ⟨heq.symm, rfl⟩
  · exact ⟨rfl, rfl⟩

theorem closeTab_consistent (s : EditorState) (tid : String) (h : TabsConsistent s) :
    TabsConsistent (closeTab s tid) := by
  intro tab htab
  rw [(closeTab_parts s tid).1] at htab
  rw [(closeTab_parts s tid).2]
  exact h tab (List.mem_of_mem_filter htab)

theorem import_consistent (s : EditorState) (nm ct : String) (h : TabsConsistent s) :
    TabsConsistent (handleMarkdownImport s nm ct) := by
  intro tab htab
  replace htab : tab ∈ s.tabs ++ [{ id := nm, fileName := nm, content := ct }] := htab
  show tab.id ∈ (s.files ++
    [({ name := nm, type := FileType.markdown, content := FileContent.text ct,
        isNew := false } : WorkspaceFile)]).map WorkspaceFile.name
  rw [List.map_append, List.mem_append]
  rcases List.mem_append.mp htab with hold | hnew
  · exact Or.inl (h tab hold)
  · rw [List.mem_singleton] at hnew
    subst hnew
    exact Or.inr (by simp)

theorem createNewFile_parts (s : EditorState) (dateStr : String) (ts : Nat) :
    ∃ newName, (createNewFile s dateStr ts).files = s.files ++
        [{ name := newName, type := FileType.markdown,
           content := FileContent.text (generateDefaultTemplate dateStr),
           isNew := true }] ∧
      (createNewFile s dateStr ts).tabs = s.tabs ++
        [{ id := newName, fileName := newName,
           content := generateDefaultTemplate dateStr }] := by
  unfold createNewFile
  split
  · exact ⟨findFreeName (s.files.map WorkspaceFile.name) 1 (s.files.length + 1),
      rfl, rfl⟩
  · exact ⟨"index.md", rfl, rfl⟩

theorem createNewFile_consistent (s : EditorState) (dateStr : String) (ts : Nat)
    (h : TabsConsistent s) : TabsConsistent (createNewFile s dateStr ts) := by
  obtain ⟨nn, hf, ht⟩ := createNewFile_parts s dateStr ts
  intro tab htab
  rw [ht] at htab
  rw [hf, List.map_append, List.mem_append]
  rcases List.mem_append.mp htab with hold | hnew
  · exact Or.inl (h tab hold)
  · rw [List.mem_singleton] at hnew
    subst hnew
    exact Or.inr (by simp)

theorem switchTab_parts (s : EditorState) (tid : String) (ts : Nat) :
    (switchTab s tid ts).tabs = s.tabs ∧ (switchTab s tid ts).files = s.files := by
  unfold switchTab
  split
  case h_1 tab heq => exact ⟨rfl, rfl⟩
  case h_2 => exact ⟨rfl, rfl⟩

theorem switchTab_consistent (s : EditorState) (tid : String) (ts : Nat)
    (h : TabsConsistent s) : TabsConsistent (switchTab s tid ts) := by
  intro tab htab
  rw [(switchTab_parts s tid ts).1] at htab
  rw [(switchTab_parts s tid ts).2]
  exact h tab htab

theorem deleteCascade_names (fn : String) (files : List WorkspaceFile) :
    (deleteCascade fn files).map WorkspaceFile.name =
      files.map WorkspaceFile.name := by
  unfold deleteCascade
  rw [List.map_map]
  apply List.map_congr_left
  intro f _
  obtain ⟨nm, tp, ct, isn⟩ := f
  simp only [Function.comp_apply]
  split
  · cases ct <;> rfl
  · rfl

theorem delete_active_consistent (s : EditorState) (fileName : String)
    (hact : s.currentFile = fileName) (h : TabsConsistent s) :
    TabsConsistent (handleDeleteFile s fileName) := by
  unfold handleDeleteFile
  rw [if_pos hact]
  have hc := closeTab_consistent s fileName h
  intro tab htab
  replace htab : tab ∈ (closeTab s fileName).tabs := htab
  have hid : tab.id ≠ fileName := by
    rw [(closeTab_parts s fileName).1] at htab
    have := List.mem_filter.mp htab
    simpa using this.2
  have hmem := hc tab htab
  show tab.id ∈ (applyDelete (closeTab s fileName) fileName).files.map WorkspaceFile.name
  have hnames : (applyDelete (closeTab s fileName) fileName).files.map
      WorkspaceFile.name = ((closeTab s fileName).files.filter
        (fun f => f.name ≠ fileName)).map WorkspaceFile.name := by
    unfold applyDelete
    split
    · exact deleteCascade_names _ _
    · rfl
  rw [hnames]
  rw [List.mem_map] at hmem ⊢
  obtain ⟨f, hf, he⟩ := hmem
  refine ⟨f, ?_, he⟩
  rw [List.mem_filter]
  refine ⟨hf, ?_⟩
  simp only [decide_eq_true_eq]
  rw [he]
  exact hid

theorem rename_consistent (s : EditorState) (oldName newName : String)
    (hMd : ∀ tab ∈ s.tabs, tab.id = oldName →
      (s.files.find? (fun f => f.name = oldName)).map WorkspaceFile.type =
        some FileType.markdown)
    (h : TabsConsistent s) :
    TabsConsistent (handleRenameFile s oldName newName) := by
  unfold handleRenameFile
  split
  case isTrue => exact h
  case isFalse hnew =>
    intro tab htab
    have hmaps : (s.files.map (renameCascade oldName newName)).map WorkspaceFile.name =
        (s.files.map WorkspaceFile.name).map
          (fun x => if x = oldName then newName else x) := by
      rw [List.map_map, List.map_map]
      exact List.map_congr_left (fun f _ => renameCascade_name oldName newName f)
    show tab.id ∈ (s.files.map (renameCascade oldName newName)).map WorkspaceFile.name
    rw [hmaps]
    replace htab : tab ∈ (if (s.files.find? (fun f => f.name = oldName)).map
        WorkspaceFile.type = some FileType.markdown then
          s.tabs.map (fun t => if t.id = oldName then
            { t with id := newName, fileName := newName } else t)
        else s.tabs) := htab
    split at htab
    case isTrue hmd =>
      rw [List.mem_map] at htab
      obtain ⟨t0, ht0, he⟩ := htab
      subst he
      by_cases hto : t0.id = oldName
      · rw [if_pos hto]
        rw [List.mem_map]
        refine ⟨oldName, ?_, by rw [if_pos rfl]⟩
        have hmemo := h t0 ht0
        rw [hto] at hmemo
        exact hmemo
      · rw [if_neg hto]
        rw [List.mem_map]
        exact ⟨t0.id, h t0 ht0, by rw [if_neg hto]⟩
    case isFalse hmd =>
      have hto : tab.id ≠ oldName := fun he => hmd (hMd tab htab he)
      rw [List.mem_map]
      exact ⟨tab.id, h tab htab, by rw [if_neg hto]⟩

/-- A two-document workspace with both documents open in tabs, document
`a.md` active, and a freshly seeded history. -/
def twoDocState : EditorState :=
  { files := [
      { name := "a.md", type := FileType.markdown,
          content := FileContent.text "A", isNew := false },
      { name := "b.md", type := FileType.markdown,
          content := FileContent.text "B", isNew := false }]
    tabs := [
      { id := "a.md", fileName := "a.md", content := "A" },
      { id := "b.md", fileName := "b.md", content := "B" }]
    activeTab := "a.md"
    currentFile := "a.md"
    content := "A"
    missingResources := []
    hm := useHistoryManager "A" 100 0 }

/-- C2 (code bug): switching the active tab does NOT reset the history
manager to a single-entry history — `switchTab` calls `addHistory
(tab.content, 0)`, which pushes the new tab's content on top of the existing
history.  Right after the switch the history has two entries, the position is
1, undo is possible, and undoing loads the PREVIOUS tab's content "A" into
document `b.md`'s buffer. -/
theorem switchTab_pushes_history :
    (switchTab twoDocState "b.md" 1).hm.historyLength = 2 ∧
    (switchTab twoDocState "b.md" 1).hm.currentIndex = 1 ∧
    (switchTab twoDocState "b.md" 1).hm.canUndo = true ∧
    (undoState (switchTab twoDocState "b.md" 1).hm).content = "A" := by decide

/-- C4 (amended): new-document creation (with `index-k.md` auto-suffixing),
rename (rejected on collision) and conversion-confirm (replace-in-place)
preserve pairwise-distinct file names.  Markdown import and direct
image import append without a collision check and can duplicate names — see
the counterexample. -/
theorem name_uniqueness (s : EditorState) (dateStr oldName newName : String)
    (ts : Nat) (pf : WorkspaceFile)
    (h : (s.files.map WorkspaceFile.name).Nodup) :
    ((createNewFile s dateStr ts).files.map WorkspaceFile.name).Nodup ∧
    ((handleRenameFile s oldName newName).files.map WorkspaceFile.name).Nodup ∧
    ((conversionConfirmAdd s pf).files.map WorkspaceFile.name).Nodup :=
  ⟨createNewFile_names s dateStr ts h, rename_names s oldName newName h,
   conversion_names s pf h⟩

/-- C4 counterexample: importing a markdown file whose name already exists
appends a second entry with the same name — `handleMarkdownImport` performs
no collision check, so the file list holds `a.md` twice. -/
theorem import_duplicates_names :
    ¬ ((handleMarkdownImport twoDocState "a.md" "dup").files.map
        WorkspaceFile.name).Nodup := by decide

/-- C4 witness: the three preserving operations applied to a concrete
workspace with distinct names. -/
theorem name_uniqueness_witness :
    ((createNewFile twoDocState "2024-01-01 00:00:00" 5).files.map
      WorkspaceFile.name).Nodup ∧
    ((handleRenameFile twoDocState "a.md" "c.md").files.map
      WorkspaceFile.name).Nodup ∧
    ((conversionConfirmAdd twoDocState
        { name := "p.webp", type := FileType.image, content := FileContent.binary [],
          isNew := false }).files.map WorkspaceFile.name).Nodup :=
  name_uniqueness twoDocState "2024-01-01 00:00:00" "a.md" "c.md" 5
    { name := "p.webp", type := FileType.image, content := FileContent.binary [],
      isNew := false } (by decide)

/-- C5 (amended): tab/file-store consistency is preserved by closing a tab,
by importing a markdown file, creating a new document, switching tabs, and
deleting the CURRENTLY ACTIVE file, and renaming (when tabs with the old name
point at a markdown entry, as they always do in the UI).  Deleting a file
open in a background tab breaks it — see the counterexample. -/
theorem tab_file_consistency (s : EditorState)
    (tid nm ct dateStr oldName newName : String) (ts : Nat)
    (h : TabsConsistent s) :
    TabsConsistent (closeTab s tid) ∧
    TabsConsistent (handleMarkdownImport s nm ct) ∧
    TabsConsistent (createNewFile s dateStr ts) ∧
    TabsConsistent (switchTab s tid ts) ∧
    (s.currentFile = tid → TabsConsistent (handleDeleteFile s tid)) ∧
    ((∀ tab ∈ s.tabs, tab.id = oldName →
        (s.files.find? (fun f => f.name = oldName)).map WorkspaceFile.type =
          some FileType.markdown) →
      TabsConsistent (handleRenameFile s oldName newName)) :=
  ⟨closeTab_consistent s tid h, import_consistent s nm ct h,
   createNewFile_consistent s dateStr ts h, switchTab_consistent s tid ts h,
   fun hact => delete_active_consistent s tid hact h,
   fun hMd => rename_consistent s oldName newName hMd h⟩

/-- C5 counterexample: deleting `b.md` while `a.md` is active removes the
file-store entry but leaves the tab for `b.md` in the tab list —
`handleDeleteFile` only closes the tab when the deleted file is the current
one, so the tab references a nonexistent file-store entry. -/
theorem delete_inactive_dangling :
    "b.md" ∈ (handleDeleteFile twoDocState "b.md").tabs.map Tab.id ∧
    "b.md" ∉ ((handleDeleteFile twoDocState "b.md").files.map
      WorkspaceFile.name) := by decide

/-- C5 witness: the consistency-preserving operations applied to the concrete
two-document workspace, with the delete-the-active-file hypothesis
discharged. -/
theorem tab_file_consistency_witness :
    TabsConsistent (closeTab twoDocState "a.md") ∧
    TabsConsistent (handleDeleteFile twoDocState "a.md") :=
  ⟨(tab_file_consistency twoDocState "a.md" "c.md" "x" "d" "o" "n" 0 (by decide)).1,
   (tab_file_consistency twoDocState "a.md" "c.md" "x" "d" "o" "n" 0
     (by decide)).2.2.2.2.1 rfl⟩

/-- A workspace holding the image `pic.png` plus two markdown documents that
reference it inline and (for the first) in the cover-asset line. -/
def picWorkspace : EditorState :=
  { files := [
      { name := "pic.png", type := FileType.image,
          content := FileContent.binary [1, 2, 3], isNew := false },
      { name := "doc1.md", type := FileType.markdown,
          content := FileContent.text
            "---\nphotos:\n- pic.png\n---\n![pic](pic.png)\nmid ![pic](pic.png) end",
          isNew := false },
      { name := "doc2.md", type := FileType.markdown,
          content := FileContent.text "a ![x](pic.png) b", isNew := false }]
    tabs := [{ id := "doc1.md", fileName := "doc1.md", content := "x" }]
    activeTab := "doc1.md"
    currentFile := "doc1.md"
    content := "x"
    missingResources := []
    hm := useHistoryManager "x" 100 0 }

/-- C7: deleting `pic.png` removes its entry and rewrites every markdown
file: every inline reference `![…](pic.png)` becomes the visible
deleted-placeholder `![图片已删除]()`, and the cover-asset line after
`photos:` is blanked to the empty list item `- `. -/
theorem delete_cascade_example :
    (handleDeleteFile picWorkspace "pic.png").files =
      [{ name := "doc1.md", type := FileType.markdown,
           content := FileContent.text
           "---\nphotos:\n- \n---\n![图片已删除]()\nmid ![图片已删除]() end",
         isNew := false },
       { name := "doc2.md", type := FileType.markdown,
         content := FileContent.text "a ![图片已删除]() b", isNew := false }] := by
  decide
